import Mathlib

/-!
# Verification of the Markov-chain melody generator

Shallow embedding of `src/markov_melody_generation.py`:

* `MarkovChain.train` / `MarkovChain.generate` — the order-N Markov chain over
  note pairs (`MarkovChain` class, lines 8–90).
* `extract_notes` — the event pairer (lines 93–127), embedded per track.
* `save_melody` — the serializer back to a flat event list (lines 130–172);
  only the event construction is modelled, not the binary file container.

Python dictionaries preserve insertion order, so `defaultdict(Counter)` is
embedded as an insertion-ordered association list `Model`, and each `Counter`
as an insertion-ordered association list `SuccCounter`.

Randomness (`random.choice`, `random.choices`) is embedded by an injected
stream `rand : Nat → Nat` of raw random numbers, one consumed per call in
program order; a call choosing among `n` alternatives reduces its number
modulo `n` (uniform choice over indices), and the weighted choice reduces
modulo the total weight and selects by cumulative counts, exactly the
bucket structure `random.choices` uses over the normalized weights.
-/

deriving instance DecidableEq for Except

/-- One timed note message: pitch, velocity and delta-time, the three fields
the Python code reads off a `mido` note message. -/
structure NoteEvent where
  pitch : Nat
  velocity : Nat
  time : Nat
deriving DecidableEq, Repr, Inhabited

/-- A paired note: `(note_on fields, note_off fields)` — the tuple
`((on_pitch, on_velocity, on_time), (off_pitch, off_velocity, off_time))`
the Python code uses as the alphabet of the chain. -/
abbrev NotePair := NoteEvent × NoteEvent

/-- Placeholder pair, used only as the default of list indexing that the
Python runtime would never reach on the inputs the code guards for. -/
def defaultPair : NotePair := (⟨0, 0, 0⟩, ⟨0, 0, 0⟩)

/-- A context key of the chain: `tuple(sequence[i:i+order])` in Python. -/
abbrev Context := List NotePair

/-- One `Counter` of successors: insertion-ordered `(successor, count)` list. -/
abbrev SuccCounter := List (NotePair × Nat)

/-- The transition table `defaultdict(Counter)`: insertion-ordered
association list from contexts to successor counters. -/
abbrev Model := List (Context × SuccCounter)

/-- `Counter[p] += 1`: bump the count of `p`, appending `(p, 1)` when absent
(Python `Counter` returns 0 for a missing key and keeps insertion order). -/
def counterIncr : SuccCounter → NotePair → SuccCounter
  | [], p => [(p, 1)]
  | (q, n) :: rest, p =>
    if q = p then (q, n + 1) :: rest else (q, n) :: counterIncr rest p

/-- `Counter[p]` as a read: the stored count of `p`, 0 when absent. -/
def counterGet : SuccCounter → NotePair → Nat
  | [], _ => 0
  | (q, n) :: rest, p => if q = p then n else counterGet rest p

/-- Total of all counts in a counter: what `sum(counts)` computes in
`generate`. -/
def counterTotal (c : SuccCounter) : Nat := (c.map Prod.snd).sum

/-- `dict.get(ctx)`: first binding of `ctx`, without any insertion. -/
def lookupCtx : Model → Context → Option SuccCounter
  | [], _ => none
  | (c, cnt) :: rest, ctx => if c = ctx then some cnt else lookupCtx rest ctx

/-- `self.model[ctx][p] += 1`: via `defaultdict`, an absent `ctx` is first
bound to an empty counter (at the end, insertion order) and then `p` is
bumped inside the counter of `ctx`. -/
def modelIncr : Model → Context → NotePair → Model
  | [], ctx, p => [(ctx, counterIncr [] p)]
  | (c, cnt) :: rest, ctx, p =>
    if c = ctx then (c, counterIncr cnt p) :: rest
    else (c, cnt) :: modelIncr rest ctx p

/-- `self.model.setdefault(ctx, Counter())`: bind `ctx` to the empty counter
only when it is absent; an existing binding is untouched. -/
def modelSetdefault (m : Model) (ctx : Context) : Model :=
  match lookupCtx m ctx with
  | some _ => m
  | none => m ++ [(ctx, [])]

/-- The count stored for `(ctx, p)`, 0 when the context or the pair is
absent. -/
def modelCount (m : Model) (ctx : Context) (p : NotePair) : Nat :=
  counterGet ((lookupCtx m ctx).getD []) p

/-- Python negative slice `s[-k:]`: the whole list when `k = 0` (Python's
`s[-0:]` is `s[0:]`), otherwise the last `k` elements (all of `s` when
`k ≥ len(s)`). -/
def pySliceLast (s : List α) (k : Nat) : List α :=
  if k = 0 then s else s.drop (s.length - k)

/-- The window `tuple(sequence[i:i + order])` starting at `i`. -/
def windowAt (s : List NotePair) (order i : Nat) : Context :=
  (s.drop i).take order

/-- The abstract error kinds behind the `ValueError`s the Python code raises;
each constructor carries the numbers interpolated into the message. -/
inductive MarkovError where
  | insufficientData (order actual : Nat)
  | emptyModel
  | insufficientLength (length order : Nat)
deriving DecidableEq, Repr

/-- The Markov chain object: the fixed `order` and the mutable transition
table `model`. -/
structure MarkovChain where
  order : Nat
  model : Model
deriving DecidableEq, Repr

/-- The counting loop of `train`:
`for i in range(len(sequence) - order): model[window][successor] += 1`. -/
def trainWindows (order : Nat) (m : Model) (s : List NotePair) : Model :=
  (List.range (s.length - order)).foldl
    (fun acc i => modelIncr acc (windowAt s order i) (s.getD (i + order) defaultPair)) m

/-- The whole model update of `train`: the counting loop followed by
`model.setdefault(tuple(sequence[-order:]), Counter())`. -/
def trainModel (order : Nat) (m : Model) (s : List NotePair) : Model :=
  modelSetdefault (trainWindows order m s) (pySliceLast s order)

/-- `MarkovChain.train`: raises when `len(sequence) <= order`, otherwise
returns the chain with the updated table. -/
def MarkovChain.train (mc : MarkovChain) (s : List NotePair) :
    Except MarkovError MarkovChain :=
  if s.length ≤ mc.order then
    Except.error (MarkovError.insufficientData mc.order s.length)
  else
    Except.ok ⟨mc.order, trainModel mc.order mc.model s⟩

/-- `random.choice` on a list of contexts: uniform index `r % len`. The
default is never reached on the non-empty lists the code calls it on. -/
def listChoice (l : List Context) (r : Nat) : Context :=
  l.getD (r % l.length) []

/-- `random.choice` on the elements of a context. -/
def pairChoice (l : Context) (r : Nat) : NotePair :=
  l.getD (r % l.length) defaultPair

/-- Selection by cumulative weights, the bucket structure of
`random.choices`: `r` below the first count selects the first entry,
otherwise recurse on `r` minus that count. -/
def cumPick : SuccCounter → Nat → NotePair
  | [], _ => defaultPair
  | (q, d) :: rest, r => if r < d then q else cumPick rest (r - d)

/-- `random.choices(choices, weights=probabilities, k=1)[0]` over the items
of a counter in insertion order: reduce the raw random number modulo the
total weight and select by cumulative counts. -/
def weightedChoice (c : SuccCounter) (r : Nat) : NotePair :=
  cumPick c (r % counterTotal c)

/-- One iteration of the generation loop (lines 74–88): look up the current
context with `.get`; a non-empty counter samples a weighted successor, an
absent context or an empty counter triggers the dead-end recovery (a uniform
context, then a uniform element of it); the chosen note is appended and the
current context is recomputed as `tuple(result[-order:])`. The table is
passed through unchanged, as the loop only reads it. Returns
`(model, current context, result, next random index)`. -/
def genIter (model : Model) (states : List Context) (order : Nat)
    (rand : Nat → Nat) (current : Context) (result : List NotePair) (k : Nat) :
    Model × Context × List NotePair × Nat :=
  match lookupCtx model current with
  | some cnt =>
    if cnt = [] then
      let st := listChoice states (rand k)
      let next := pairChoice st (rand (k + 1))
      (model, pySliceLast (result ++ [next]) order, result ++ [next], k + 2)
    else
      let next := weightedChoice cnt (rand k)
      (model, pySliceLast (result ++ [next]) order, result ++ [next], k + 1)
  | none =>
    let st := listChoice states (rand k)
    let next := pairChoice st (rand (k + 1))
    (model, pySliceLast (result ++ [next]) order, result ++ [next], k + 2)

/-- The generation loop, `length - order` iterations of `genIter`, threading
the table state, the current context, the output and the random index. -/
def genLoop (states : List Context) (order : Nat) (rand : Nat → Nat) :
    Nat → Model → Context → List NotePair → Nat → Model × List NotePair
  | 0, m, _, result, _ => (m, result)
  | n + 1, m, current, result, k =>
    genLoop states order rand n
      (genIter m states order rand current result k).1
      (genIter m states order rand current result k).2.1
      (genIter m states order rand current result k).2.2.1
      (genIter m states order rand current result k).2.2.2

/-- `MarkovChain.generate`: the emptiness check, the length check, the
uniformly chosen seed context (`random.choice(list(model.keys()))`, consuming
`rand 0`), then the loop. Returns the post-state of the chain together with
the generated sequence. -/
def MarkovChain.generate (mc : MarkovChain) (length : Nat) (rand : Nat → Nat) :
    Except MarkovError (MarkovChain × List NotePair) :=
  if mc.model = [] then Except.error MarkovError.emptyModel
  else if length ≤ mc.order then
    Except.error (MarkovError.insufficientLength length mc.order)
  else
    Except.ok
      (⟨mc.order,
        (genLoop (mc.model.map Prod.fst) mc.order rand (length - mc.order) mc.model
          (listChoice (mc.model.map Prod.fst) (rand 0))
          (listChoice (mc.model.map Prod.fst) (rand 0)) 1).1⟩,
       (genLoop (mc.model.map Prod.fst) mc.order rand (length - mc.order) mc.model
          (listChoice (mc.model.map Prod.fst) (rand 0))
          (listChoice (mc.model.map Prod.fst) (rand 0)) 1).2)

/-- Training a fresh chain on several sequences in turn, stopping at the
first failure: the accumulation pattern `for s in seqs: mc.train(s)`. -/
def trainAll (mc : MarkovChain) : List (List NotePair) → Except MarkovError MarkovChain
  | [] => Except.ok mc
  | s :: rest =>
    match mc.train s with
    | Except.ok mc' => trainAll mc' rest
    | Except.error e => Except.error e

/-- One timed message as far as the core reads it: note-on, note-off,
set-tempo (carrying the tempo value), or any other message kind. -/
inductive MidiEvent where
  | noteOn (pitch velocity time : Nat)
  | noteOff (pitch velocity time : Nat)
  | setTempo (tempo time : Nat)
  | otherMsg (time : Nat)
deriving DecidableEq, Repr

/-- The forward scan of `extract_notes` (lines 116–119): the first message
after the begin that is a `note_off`, or a `note_on` with velocity 0, with
the given pitch; its fields when found. -/
def findOff (pitch : Nat) : List MidiEvent → Option NoteEvent
  | [] => none
  | MidiEvent.noteOff p v t :: rest =>
    if p = pitch then some ⟨p, v, t⟩ else findOff pitch rest
  | MidiEvent.noteOn p v t :: rest =>
    if v = 0 ∧ p = pitch then some ⟨p, v, t⟩ else findOff pitch rest
  | _ :: rest => findOff pitch rest

/-- The event pairer (lines 105–127) on one track: each `note_on` with
positive velocity is paired with the first matching off event in the rest of
the track (`findOff`), falling back to `(pitch, 0, default_off_time)`; the
source applies this per track and concatenates. -/
def extract_notes (d : Nat) : List MidiEvent → List NotePair
  | [] => []
  | MidiEvent.noteOn p v t :: rest =>
    if 0 < v then
      (⟨p, v, t⟩, (findOff p rest).getD ⟨p, 0, d⟩) :: extract_notes d rest
    else
      extract_notes d rest
  | _ :: rest => extract_notes d rest

/-- `mido.bpm2tempo`: microseconds per beat of a BPM value; exact at the one
argument (120) the code uses. -/
def bpm2tempo (bpm : Nat) : Nat := 60000000 / bpm

/-- The tempo scan of `save_melody` (lines 148–152): the tempo value of the
first `set_tempo` message of the supplied metadata track. -/
def findTempo : List MidiEvent → Option Nat
  | [] => none
  | MidiEvent.setTempo t _ :: _ => some t
  | _ :: rest => findTempo rest

/-- The first event `save_melody` emits: the found tempo copied with
`time=0`, or the 120 BPM default. -/
def tempoMsg (track0 : List MidiEvent) : MidiEvent :=
  match findTempo track0 with
  | some t => MidiEvent.setTempo t 0
  | none => MidiEvent.setTempo (bpm2tempo 120) 0

/-- The serializer (lines 139–169), restricted to the event list it builds:
the tempo event, then for each pair a `note_on` from the begin fields and a
`note_off` built from the begin member's pitch (the off pitch is discarded
by the `_` pattern in the source) and the end member's velocity and time. -/
def save_melody (pairs : List NotePair) (track0 : List MidiEvent) :
    List MidiEvent :=
  tempoMsg track0 ::
    pairs.flatMap (fun pr =>
      [MidiEvent.noteOn pr.1.pitch pr.1.velocity pr.1.time,
       MidiEvent.noteOff pr.1.pitch pr.2.velocity pr.2.time])

/-- How many windows of `s` have context `ctx` and successor `p`: the number
of window starts `i` in `[0, len(s) - order)` with
`tuple(s[i:i+order]) = ctx` and `s[i+order] = p`. -/
def windowCount (order : Nat) (s : List NotePair) (ctx : Context) (p : NotePair) : Nat :=
  ((List.range (s.length - order)).filter
    (fun i => decide (windowAt s order i = ctx ∧ s.getD (i + order) defaultPair = p))).length

/-- Concrete pairs used by the witnesses: the two notes of the spec's worked
example. -/
def noteA : NotePair := (⟨60, 100, 0⟩, ⟨60, 0, 10⟩)

/-- Second concrete pair for the witnesses. -/
def noteB : NotePair := (⟨64, 90, 5⟩, ⟨64, 0, 15⟩)

/-- The model obtained by training an order-1 chain on `[noteA, noteB]`. -/
def modelAB : Model := [([noteA], [(noteB, 1)]), ([noteB], [])]

/-- Claim-side classification: a begin-kind event, i.e. a `note_on` with
positive velocity. -/
def isBeginEvt : MidiEvent → Bool
  | MidiEvent.noteOn _ v _ => decide (0 < v)
  | _ => false

/-- Claim-side classification: an end-kind event for `pitch` — an explicit
`note_off` with that pitch, or a `note_on` with velocity 0 and that pitch. -/
def isEndFor (pitch : Nat) : MidiEvent → Bool
  | MidiEvent.noteOff p _ _ => decide (p = pitch)
  | MidiEvent.noteOn p v _ => decide (v = 0 ∧ p = pitch)
  | _ => false

/-- The note fields of a begin-kind event. -/
def beginFields : MidiEvent → NoteEvent
  | MidiEvent.noteOn p v t => ⟨p, v, t⟩
  | _ => ⟨0, 0, 0⟩

/-- The note fields of an end-kind event (either kind carries them). -/
def endFields : MidiEvent → NoteEvent
  | MidiEvent.noteOff p v t => ⟨p, v, t⟩
  | MidiEvent.noteOn p v t => ⟨p, v, t⟩
  | _ => ⟨0, 0, 0⟩

/-- Claim-side pair for the begin event at position `i`: its fields, matched
by value with the fields of the first end-kind event of the same pitch
strictly after `i`, or the synthesized `(pitch, 0, d)` fallback. -/
def pairAt (d : Nat) (track : List MidiEvent) (i : Nat) : NotePair :=
  match (track.drop (i + 1)).find?
      (isEndFor (beginFields (track.getD i (MidiEvent.otherMsg 0))).pitch) with
  | some e => (beginFields (track.getD i (MidiEvent.otherMsg 0)), endFields e)
  | none => (beginFields (track.getD i (MidiEvent.otherMsg 0)),
      ⟨(beginFields (track.getD i (MidiEvent.otherMsg 0))).pitch, 0, d⟩)

/-- Claim-side characterization of the pairer: one pair per begin-kind
position, in positional order. -/
def extract_notes_spec (d : Nat) (track : List MidiEvent) : List NotePair :=
  ((List.range track.length).filter
    (fun i => isBeginEvt (track.getD i (MidiEvent.otherMsg 0)))).map (pairAt d track)

/-- Claim-side tempo predicate: is this a tempo directive? -/
def isTempoEvt : MidiEvent → Bool
  | MidiEvent.setTempo _ _ => true
  | _ => false

/-- The tempo value a tempo directive carries. -/
def tempoOf : MidiEvent → Nat
  | MidiEvent.setTempo t _ => t
  | _ => 0

/-- A perfectly matched begin/end stream: each pair flattened to its
`note_on` event immediately followed by its `note_off` event. -/
def matchedStream (ps : List NotePair) : List MidiEvent :=
  ps.flatMap (fun pr =>
    [MidiEvent.noteOn pr.1.pitch pr.1.velocity pr.1.time,
     MidiEvent.noteOff pr.2.pitch pr.2.velocity pr.2.time])

/-- Invariant tying a table to the multiset `elems` of all pairs ever
trained: every key has exactly `order` elements, all drawn from `elems`, and
every recorded successor is drawn from `elems` with a positive count. -/
def ModelInv (order : Nat) (elems : List NotePair) (m : Model) : Prop :=
  ∀ e ∈ m, e.1.length = order ∧ (∀ p ∈ e.1, p ∈ elems) ∧
    ∀ qc ∈ e.2, qc.1 ∈ elems ∧ 1 ≤ qc.2

theorem counterGet_incr (c : SuccCounter) (p q : NotePair) :
    counterGet (counterIncr c p) q = counterGet c q + (if p = q then 1 else 0) := by
  induction c with
  | nil =>
    by_cases h : p = q <;> simp [counterIncr, counterGet, h]
  | cons hd tl ih =>
    obtain ⟨a, n⟩ := hd
    by_cases h1 : a = p
    · by_cases h2 : a = q
      · have h3 : p = q := h1.symm.trans h2
        simp [counterIncr, counterGet, h1, h2, h3]
      · have h3 : ¬p = q := fun hh => h2 (h1.trans hh)
        simp [counterIncr, counterGet, h1, h2, h3]
    · by_cases h2 : a = q
      · have h3 : ¬p = q := fun hh => h1 (h2.trans hh.symm)
        have h4 : ¬q = p := fun hh => h1 (h2.trans hh)
        simp [counterIncr, counterGet, h1, h2, h3, h4]
      · simp [counterIncr, counterGet, h1, h2, ih]

theorem modelCount_incr (m : Model) (c : Context) (p : NotePair)
    (ctx : Context) (q : NotePair) :
    modelCount (modelIncr m c p) ctx q =
      modelCount m ctx q + (if c = ctx ∧ p = q then 1 else 0) := by
  induction m with
  | nil =>
    by_cases h : c = ctx
    · subst h
      by_cases hp : p = q <;>
        simp [modelIncr, modelCount, lookupCtx, counterGet, counterIncr, hp]
    · simp [modelIncr, modelCount, lookupCtx, h]
  | cons hd tl ih =>
    obtain ⟨a, cnt⟩ := hd
    by_cases h1 : a = c
    · by_cases h2 : a = ctx
      · have h3 : c = ctx := h1.symm.trans h2
        simp [modelIncr, modelCount, lookupCtx, h1, h2, h3, counterGet_incr]
      · have h3 : ¬c = ctx := fun hh => h2 (h1.trans hh)
        simp [modelIncr, modelCount, lookupCtx, h1, h2, h3]
    · by_cases h2 : a = ctx
      · have h3 : ¬c = ctx := fun hh => h1 (h2.trans hh.symm)
        have h4 : ¬ctx = c := fun hh => h1 (h2.trans hh)
        simp [modelIncr, modelCount, lookupCtx, h1, h2, h3, h4]
      · simp only [modelIncr, if_neg h1, modelCount, lookupCtx, if_neg h2] at ih ⊢
        exact ih

theorem lookupCtx_append (m₁ m₂ : Model) (ctx : Context) :
    lookupCtx (m₁ ++ m₂) ctx =
      match lookupCtx m₁ ctx with
      | some cnt => some cnt
      | none => lookupCtx m₂ ctx := by
  induction m₁ with
  | nil => simp [lookupCtx]
  | cons hd tl ih =>
    obtain ⟨c, cnt⟩ := hd
    by_cases h : c = ctx <;> simp [lookupCtx, h, ih]

theorem lookupCtx_setdefault_self (m : Model) (c : Context) :
    lookupCtx (modelSetdefault m c) c = some ((lookupCtx m c).getD []) := by
  unfold modelSetdefault
  cases h : lookupCtx m c with
  | some cnt => simp [h]
  | none => rw [lookupCtx_append] ; simp [h, lookupCtx]

theorem modelCount_setdefault (m : Model) (c ctx : Context) (p : NotePair) :
    modelCount (modelSetdefault m c) ctx p = modelCount m ctx p := by
  unfold modelSetdefault
  cases h : lookupCtx m c with
  | some cnt => rfl
  | none =>
    unfold modelCount
    rw [lookupCtx_append]
    cases h2 : lookupCtx m ctx with
    | some cnt => simp
    | none =>
      by_cases hc : c = ctx
      · subst hc
        simp [lookupCtx, counterGet]
      · simp [lookupCtx, hc]

theorem modelCount_foldl (order : Nat) (s : List NotePair) (is : List Nat)
    (m : Model) (ctx : Context) (p : NotePair) :
    modelCount
        (is.foldl
          (fun acc i => modelIncr acc (windowAt s order i) (s.getD (i + order) defaultPair)) m)
        ctx p =
      modelCount m ctx p +
        (is.filter
          (fun i => decide (windowAt s order i = ctx ∧ s.getD (i + order) defaultPair = p))).length := by
  induction is generalizing m with
  | nil => simp
  | cons i is ih =>
    rw [List.foldl_cons, ih, modelCount_incr, List.filter_cons]
    by_cases h : windowAt s order i = ctx ∧ s.getD (i + order) defaultPair = p
    · rw [if_pos h, if_pos (by simpa using h), List.length_cons]
      omega
    · rw [if_neg h, if_neg (by simpa using h)]
      omega

theorem modelCount_trainWindows (order : Nat) (m : Model) (s : List NotePair)
    (ctx : Context) (p : NotePair) :
    modelCount (trainWindows order m s) ctx p =
      modelCount m ctx p + windowCount order s ctx p :=
  modelCount_foldl order s (List.range (s.length - order)) m ctx p

theorem modelCount_trainModel (order : Nat) (m : Model) (s : List NotePair)
    (ctx : Context) (p : NotePair) :
    modelCount (trainModel order m s) ctx p =
      modelCount m ctx p + windowCount order s ctx p := by
  unfold trainModel
  rw [modelCount_setdefault, modelCount_trainWindows]

theorem train_ok_model (mc mc' : MarkovChain) (s : List NotePair)
    (htr : mc.train s = Except.ok mc') :
    mc'.order = mc.order ∧ mc'.model = trainModel mc.order mc.model s := by
  unfold MarkovChain.train at htr
  by_cases h : s.length ≤ mc.order
  · rw [if_pos h] at htr
    exact absurd htr (by simp)
  · rw [if_neg h] at htr
    rw [← Except.ok.inj htr]
    exact ⟨rfl, rfl⟩

/-- C2: a successful `train(s)` adds, for every window start
`i ∈ [0, len(s) - order)`, one to the count of
`(s[i:i+order], s[i+order])` — an absent pair therefore starts at 1 — and
counts accumulate across calls, so training a fresh chain twice on the same
sequence exactly doubles every count. -/
theorem train_window_counts (mc mc' : MarkovChain) (s : List NotePair)
    (htr : mc.train s = Except.ok mc') :
    (∀ ctx p, modelCount mc'.model ctx p =
       modelCount mc.model ctx p + windowCount mc.order s ctx p) ∧
    (∀ mc₁ mc₂, MarkovChain.train ⟨mc.order, []⟩ s = Except.ok mc₁ →
       mc₁.train s = Except.ok mc₂ →
       ∀ ctx p, modelCount mc₂.model ctx p = 2 * modelCount mc₁.model ctx p) := by
  obtain ⟨-, hm⟩ := train_ok_model mc mc' s htr
  constructor
  · intro ctx p
    rw [hm, modelCount_trainModel]
  · intro mc₁ mc₂ h1 h2 ctx p
    obtain ⟨ho1, hm1⟩ := train_ok_model _ mc₁ s h1
    obtain ⟨ho2, hm2⟩ := train_ok_model _ mc₂ s h2
    rw [hm2, modelCount_trainModel, hm1, modelCount_trainModel, ho1]
    simp [modelCount, lookupCtx, counterGet]
    omega

/-- Witness for C2 at the concrete training run
`train ⟨1, []⟩ [noteA, noteB]`. -/
theorem train_window_counts_witness :
    modelCount modelAB [noteA] noteB =
      modelCount ([] : Model) [noteA] noteB + windowCount 1 [noteA, noteB] [noteA] noteB :=
  (train_window_counts ⟨1, []⟩ ⟨1, modelAB⟩ [noteA, noteB] rfl).1 [noteA] noteB

/-- C7: after a successful `train(s)` the final `order`-length suffix of `s`
is a key of the table — bound to the counter it already had after the
counting loop, or to the empty counter when it was absent — and the
registration changes no count of any `(context, successor)` pair. -/
theorem train_tail_registered (mc mc' : MarkovChain) (s : List NotePair)
    (ho : 0 < mc.order) (htr : mc.train s = Except.ok mc') :
    lookupCtx mc'.model (s.drop (s.length - mc.order)) =
      some ((lookupCtx (trainWindows mc.order mc.model s)
        (s.drop (s.length - mc.order))).getD []) ∧
    ∀ ctx p, modelCount mc'.model ctx p =
      modelCount (trainWindows mc.order mc.model s) ctx p := by
  obtain ⟨-, hm⟩ := train_ok_model mc mc' s htr
  have htail : pySliceLast s mc.order = s.drop (s.length - mc.order) := by
    unfold pySliceLast
    rw [if_neg (Nat.pos_iff_ne_zero.mp ho)]
  constructor
  · rw [hm]
    unfold trainModel
    rw [htail, lookupCtx_setdefault_self]
  · intro ctx p
    rw [hm]
    unfold trainModel
    rw [modelCount_setdefault]

/-- Witness for C7: the tail `[noteB]` of the run
`train ⟨1, []⟩ [noteA, noteB]` is registered with an empty counter. -/
theorem train_tail_registered_witness :
    lookupCtx modelAB ([noteA, noteB].drop ([noteA, noteB].length - 1)) =
      some ((lookupCtx (trainWindows 1 [] [noteA, noteB])
        ([noteA, noteB].drop ([noteA, noteB].length - 1))).getD []) :=
  (train_tail_registered ⟨1, []⟩ ⟨1, modelAB⟩ [noteA, noteB] (by decide) rfl).1

/-- C6 counterexample: with an empty table and `length = order = 1` the
requested length is ≤ the order, yet `generate` raises the empty-model
error, not the insufficient-length one — the emptiness check runs first. -/
theorem error_precedence_cx :
    MarkovChain.generate ⟨1, []⟩ 1 (fun _ => 0) = Except.error MarkovError.emptyModel ∧
    (1 : Nat) ≤ (1 : Nat) ∧
    MarkovChain.generate ⟨1, []⟩ 1 (fun _ => 0) ≠
      Except.error (MarkovError.insufficientLength 1 1) := by
  refine ⟨rfl, le_refl 1, ?_⟩
  decide

/-- C6 (amended): `train(s)` fails, with the error carrying the order (hence
the required minimum `order + 1`) and the actual length, exactly when
`len(s) ≤ order`, and succeeds exactly when `len(s) ≥ order + 1`; `generate`
fails with the empty-model error exactly when the table is empty, and with
the insufficient-length error exactly when the table is non-empty and
`length ≤ order` (the emptiness check takes precedence). All errors are the
synchronous result of the call. -/
theorem error_conditions (mc : MarkovChain) (s : List NotePair) (len : Nat)
    (rand : Nat → Nat) :
    (mc.train s = Except.error (MarkovError.insufficientData mc.order s.length) ↔
      s.length ≤ mc.order) ∧
    ((∃ mc', mc.train s = Except.ok mc') ↔ mc.order + 1 ≤ s.length) ∧
    (mc.generate len rand = Except.error MarkovError.emptyModel ↔ mc.model = []) ∧
    (mc.generate len rand = Except.error (MarkovError.insufficientLength len mc.order) ↔
      (mc.model ≠ [] ∧ len ≤ mc.order)) := by
  refine ⟨?_, ?_, ?_, ?_⟩
  · unfold MarkovChain.train
    by_cases h : s.length ≤ mc.order <;> simp [h]
  · unfold MarkovChain.train
    by_cases h : s.length ≤ mc.order <;> simp [h] <;> omega
  · unfold MarkovChain.generate
    by_cases h1 : mc.model = []
    · simp [h1]
    · by_cases h2 : len ≤ mc.order <;> simp [h1, h2]
  · unfold MarkovChain.generate
    by_cases h1 : mc.model = []
    · simp [h1]
    · by_cases h2 : len ≤ mc.order <;> simp [h1, h2]

/-- Witness for C6: a concrete failing training call. -/
theorem error_conditions_witness :
    MarkovChain.train ⟨2, []⟩ [] = Except.error (MarkovError.insufficientData 2 0) :=
  (error_conditions ⟨2, []⟩ [] 3 (fun _ => 0)).1.mpr (by decide)

theorem genIter_fst (m : Model) (states : List Context) (order : Nat)
    (rand : Nat → Nat) (current : Context) (result : List NotePair) (k : Nat) :
    (genIter m states order rand current result k).1 = m := by
  unfold genIter
  cases hL : lookupCtx m current with
  | none => rfl
  | some cnt => by_cases h : cnt = [] <;> simp [h]

theorem genIter_result (m : Model) (states : List Context) (order : Nat)
    (rand : Nat → Nat) (current : Context) (result : List NotePair) (k : Nat) :
    ∃ x : NotePair,
      (genIter m states order rand current result k).2.2.1 = result ++ [x] := by
  unfold genIter
  cases hL : lookupCtx m current with
  | none => exact ⟨_, rfl⟩
  | some cnt =>
    by_cases h : cnt = []
    · simp only [h, if_pos]
      exact ⟨_, rfl⟩
    · simp only [h, if_neg]
      exact ⟨_, rfl⟩

theorem genLoop_fst (states : List Context) (order : Nat) (rand : Nat → Nat) :
    ∀ n m current result k,
      (genLoop states order rand n m current result k).1 = m := by
  intro n
  induction n with
  | zero => intro m current result k; rfl
  | succ n ih =>
    intro m current result k
    simp only [genLoop]
    rw [ih, genIter_fst]

theorem genLoop_result (states : List Context) (order : Nat) (rand : Nat → Nat) :
    ∀ n m current result k, ∃ t : List NotePair,
      (genLoop states order rand n m current result k).2 = result ++ t ∧
        t.length = n := by
  intro n
  induction n with
  | zero => intro m current result k; exact ⟨[], by simp [genLoop], rfl⟩
  | succ n ih =>
    intro m current result k
    obtain ⟨x, hx⟩ := genIter_result m states order rand current result k
    obtain ⟨t, ht, hlen⟩ := ih (genIter m states order rand current result k).1
      (genIter m states order rand current result k).2.1
      (genIter m states order rand current result k).2.2.1
      (genIter m states order rand current result k).2.2.2
    refine ⟨x :: t, ?_, ?_⟩
    · simp only [genLoop]
      rw [ht, hx]
      simp
    · simp [hlen]

/-- C9: a successful `generate` leaves the transition table — indeed the whole
chain — exactly as it was: the loop reads the table with `.get` (which never
inserts) and each iteration passes it on unchanged. -/
theorem generate_table_unchanged (mc mc' : MarkovChain) (len : Nat)
    (rand : Nat → Nat) (res : List NotePair)
    (hg : mc.generate len rand = Except.ok (mc', res)) :
    mc' = mc ∧ mc'.model = mc.model := by
  unfold MarkovChain.generate at hg
  by_cases h1 : mc.model = []
  · rw [if_pos h1] at hg
    exact absurd hg (by simp)
  · rw [if_neg h1] at hg
    by_cases h2 : len ≤ mc.order
    · rw [if_pos h2] at hg
      exact absurd hg (by simp)
    · rw [if_neg h2] at hg
      have h3 := congrArg Prod.fst (Except.ok.inj hg)
      simp only [genLoop_fst] at h3
      constructor
      · rw [← h3]
      · rw [← h3]

/-- Witness for C9 at a concrete generation run. -/
theorem generate_table_unchanged_witness :
    (⟨1, modelAB⟩ : MarkovChain) = ⟨1, modelAB⟩ :=
  (generate_table_unchanged ⟨1, modelAB⟩ ⟨1, modelAB⟩ 3 (fun _ => 0)
    [noteA, noteB, noteA] rfl).1

theorem listChoice_mem (l : List Context) (r : Nat) (h : l ≠ []) :
    listChoice l r ∈ l := by
  unfold listChoice
  have hlen : 0 < l.length := List.length_pos.mpr h
  have hlt : r % l.length < l.length := Nat.mod_lt r hlen
  rw [List.getD_eq_getElem l [] hlt]
  exact List.getElem_mem hlt

/-- C1: on a non-empty table whose keys all have `order` elements, a call
`generate(length)` with `length > order` succeeds, and the result has exactly
`length` pairs: the `order` pairs of the uniformly chosen seed context, in
order, followed by `length - order` appended pairs. -/
theorem generate_length_spec (mc : MarkovChain) (len : Nat) (rand : Nat → Nat)
    (hne : mc.model ≠ [])
    (hwf : ∀ e ∈ mc.model, e.1.length = mc.order)
    (hl : mc.order < len) :
    (∃ out, mc.generate len rand = Except.ok out) ∧
    ∀ mc' res, mc.generate len rand = Except.ok (mc', res) →
      res.length = len ∧
      res.take mc.order = listChoice (mc.model.map Prod.fst) (rand 0) ∧
      (res.drop mc.order).length = len - mc.order := by
  have hnot : ¬len ≤ mc.order := Nat.not_le.mpr hl
  constructor
  · unfold MarkovChain.generate
    rw [if_neg hne, if_neg hnot]
    exact ⟨_, rfl⟩
  · intro mc' res hg
    unfold MarkovChain.generate at hg
    rw [if_neg hne, if_neg hnot] at hg
    have h3 := congrArg Prod.snd (Except.ok.inj hg)
    simp only at h3
    obtain ⟨t, ht, hlen⟩ := genLoop_result (mc.model.map Prod.fst) mc.order rand
      (len - mc.order) mc.model
      (listChoice (mc.model.map Prod.fst) (rand 0))
      (listChoice (mc.model.map Prod.fst) (rand 0)) 1
    have hseed : (listChoice (mc.model.map Prod.fst) (rand 0)).length = mc.order := by
      have hmem := listChoice_mem (mc.model.map Prod.fst) (rand 0)
        (by simpa using hne)
      obtain ⟨e, he, heq⟩ := List.mem_map.mp hmem
      rw [← heq]
      exact hwf e he
    rw [ht] at h3
    rw [← h3]
    refine ⟨?_, ?_, ?_⟩
    · rw [List.length_append, hseed, hlen]
      omega
    · rw [← hseed, List.take_left]
    · rw [List.length_drop, List.length_append, hseed, hlen]
      omega

/-- Witness for C1 at a concrete generation run of length 3, order 1. -/
theorem generate_length_spec_witness :
    ([noteA, noteB, noteA] : List NotePair).length = 3 ∧
    ([noteA, noteB, noteA] : List NotePair).take 1 =
      listChoice (modelAB.map Prod.fst) 0 ∧
    (([noteA, noteB, noteA] : List NotePair).drop 1).length = 3 - 1 :=
  (generate_length_spec ⟨1, modelAB⟩ 3 (fun _ => 0) (by decide) (by decide)
    (by decide)).2 ⟨1, modelAB⟩ [noteA, noteB, noteA] rfl

theorem counterTotal_cons (q : NotePair) (d : Nat) (tl : SuccCounter) :
    counterTotal ((q, d) :: tl) = d + counterTotal tl := by
  simp [counterTotal]

theorem cumPick_mem : ∀ (c : SuccCounter) (r : Nat), r < counterTotal c →
    cumPick c r ∈ c.map Prod.fst := by
  intro c
  induction c with
  | nil => intro r hr; simp [counterTotal] at hr
  | cons hd tl ih =>
    obtain ⟨q, d⟩ := hd
    intro r hr
    by_cases h : r < d
    · simp [cumPick, h]
    · rw [counterTotal_cons] at hr
      have hlt : r - d < counterTotal tl := by omega
      simp only [cumPick, if_neg h, List.map_cons, List.mem_cons]
      exact Or.inr (ih (r - d) hlt)

theorem getD_idx_count_zero {α : Type} [DecidableEq α] (l : List α) (d x : α)
    (hx : x ∉ l) :
    ((List.range l.length).filter (fun r => decide (l.getD r d = x))).length = 0 := by
  rw [List.length_eq_zero, List.filter_eq_nil_iff]
  intro r hr
  have hrl : r < l.length := List.mem_range.mp hr
  rw [List.getD_eq_getElem l d hrl]
  simp only [decide_eq_true_eq]
  intro he
  exact hx (he ▸ List.getElem_mem hrl)

theorem getD_idx_count_one {α : Type} [DecidableEq α] (l : List α) (d x : α)
    (hnd : l.Nodup) (hx : x ∈ l) :
    ((List.range l.length).filter (fun r => decide (l.getD r d = x))).length = 1 := by
  induction l with
  | nil => simp at hx
  | cons a tl ih =>
    rw [List.length_cons, List.range_succ_eq_map, List.filter_cons]
    have hmap : ((List.map Nat.succ (List.range tl.length)).filter
        (fun r => decide ((a :: tl).getD r d = x))).length =
        ((List.range tl.length).filter (fun r => decide (tl.getD r d = x))).length := by
      rw [List.filter_map]
      rw [List.length_map]
      rfl
    by_cases hax : a = x
    · have hxtl : x ∉ tl := fun hm => (List.nodup_cons.mp hnd).1 (hax ▸ hm)
      rw [if_pos (by simpa using hax), List.length_cons, hmap,
        getD_idx_count_zero tl d x hxtl]
    · have hxtl : x ∈ tl := by
        cases List.mem_cons.mp hx with
        | inl h => exact absurd h.symm hax
        | inr h => exact h
      rw [if_neg (by simpa using hax), hmap,
        ih (List.nodup_cons.mp hnd).2 hxtl]

theorem cumPick_count : ∀ (c : SuccCounter) (p : NotePair) (cn : Nat),
    (∀ qc ∈ c, 1 ≤ qc.2) → (c.map Prod.fst).Nodup → (p, cn) ∈ c →
    ((List.range (counterTotal c)).filter
      (fun r => decide (cumPick c r = p))).length = cn := by
  intro c
  induction c with
  | nil => intro p cn _ _ hmem; simp at hmem
  | cons hd tl ih =>
    obtain ⟨q, d⟩ := hd
    intro p cn hpos hnd hmem
    rw [counterTotal_cons, List.range_add, List.filter_append, List.length_append]
    have hfirst : (List.range d).filter
        (fun r => decide (cumPick ((q, d) :: tl) r = p)) =
        (List.range d).filter (fun _ => decide (q = p)) := by
      apply List.filter_congr
      intro r hr
      have : r < d := List.mem_range.mp hr
      simp [cumPick, this]
    have hsecond : (((List.range (counterTotal tl)).map (fun x => d + x)).filter
        (fun r => decide (cumPick ((q, d) :: tl) r = p))).length =
        ((List.range (counterTotal tl)).filter
          (fun r => decide (cumPick tl r = p))).length := by
      rw [List.filter_map, List.length_map]
      congr 1
      apply List.filter_congr
      intro r _
      have hnot : ¬d + r < d := by omega
      simp [Function.comp, cumPick, hnot]
    rw [hfirst, hsecond]
    have hqtl : q ∉ tl.map Prod.fst := (List.nodup_cons.mp hnd).1
    by_cases hqp : q = p
    · have hcd : cn = d := by
        cases List.mem_cons.mp hmem with
        | inl h =>
          exact congrArg Prod.snd h
        | inr h =>
          exact absurd (hqp ▸ List.mem_map_of_mem Prod.fst h) hqtl
      have hzero : ((List.range (counterTotal tl)).filter
          (fun r => decide (cumPick tl r = p))).length = 0 := by
        rw [List.length_eq_zero, List.filter_eq_nil_iff]
        intro r hr
        have hrl : r < counterTotal tl := List.mem_range.mp hr
        simp only [decide_eq_true_eq]
        intro he
        exact hqtl (hqp ▸ he ▸ cumPick_mem tl r hrl)
      rw [hzero, hcd]
      simp [hqp]
    · have hmtl : (p, cn) ∈ tl := by
        cases List.mem_cons.mp hmem with
        | inl h => exact absurd (congrArg Prod.fst h).symm hqp
        | inr h => exact h
      have hpos' : ∀ qc ∈ tl, 1 ≤ qc.2 := fun qc hqc => hpos qc (List.mem_cons_of_mem _ hqc)
      rw [ih p cn hpos' (List.nodup_cons.mp hnd).2 hmtl]
      simp [hqp]

/-- C5: in one generation iteration, a current context bound to a non-empty
counter appends a weighted sample of that counter and steps the random index
by one; an absent context or an empty counter appends a uniformly chosen
element of a uniformly chosen table key and steps the random index by two;
both branches recompute the current context as the trailing `order` elements
of the output. The weighted sample hits each successor on exactly `count`
of the `total` equally likely residues, and the uniform choices hit each
distinct candidate on exactly one residue. -/
theorem genIter_spec (model : Model) (states : List Context) (order : Nat)
    (rand : Nat → Nat) (current : Context) (result : List NotePair) (k : Nat) :
    (∀ cnt, lookupCtx model current = some cnt → cnt ≠ [] →
      genIter model states order rand current result k =
        (model, pySliceLast (result ++ [weightedChoice cnt (rand k)]) order,
         result ++ [weightedChoice cnt (rand k)], k + 1)) ∧
    ((lookupCtx model current = none ∨ lookupCtx model current = some []) →
      genIter model states order rand current result k =
        (model,
         pySliceLast (result ++ [pairChoice (listChoice states (rand k)) (rand (k + 1))]) order,
         result ++ [pairChoice (listChoice states (rand k)) (rand (k + 1))], k + 2)) ∧
    (∀ cnt p cn, (∀ qc ∈ cnt, 1 ≤ qc.2) → (cnt.map Prod.fst).Nodup → (p, cn) ∈ cnt →
      ((List.range (counterTotal cnt)).filter
        (fun r => decide (cumPick cnt r = p))).length = cn) ∧
    (states.Nodup → ∀ st ∈ states,
      ((List.range states.length).filter
        (fun r => decide (listChoice states r = st))).length = 1) ∧
    (∀ st : Context, st.Nodup → ∀ p ∈ st,
      ((List.range st.length).filter
        (fun r => decide (pairChoice st r = p))).length = 1) := by
  refine ⟨?_, ?_, ?_, ?_, ?_⟩
  · intro cnt hL hne
    simp only [genIter, hL, if_neg hne]
  · intro h
    cases h with
    | inl h => simp only [genIter, h]
    | inr h => simp only [genIter, h, if_pos]
  · intro cnt p cn hpos hnd hmem
    exact cumPick_count cnt p cn hpos hnd hmem
  · intro hnd st hst
    have hcg : (List.range states.length).filter
        (fun r => decide (listChoice states r = st)) =
        (List.range states.length).filter
          (fun r => decide (states.getD r [] = st)) := by
      apply List.filter_congr
      intro r hr
      have : r < states.length := List.mem_range.mp hr
      simp [listChoice, Nat.mod_eq_of_lt this]
    rw [hcg]
    exact getD_idx_count_one states [] st hnd hst
  · intro st hnd p hp
    have hcg : (List.range st.length).filter
        (fun r => decide (pairChoice st r = p)) =
        (List.range st.length).filter
          (fun r => decide (st.getD r defaultPair = p)) := by
      apply List.filter_congr
      intro r hr
      have : r < st.length := List.mem_range.mp hr
      simp [pairChoice, Nat.mod_eq_of_lt this]
    rw [hcg]
    exact getD_idx_count_one st defaultPair p hnd hp

/-- Witness for C5: the weighted branch taken at a concrete iteration. -/
theorem genIter_spec_witness :
    genIter modelAB (modelAB.map Prod.fst) 1 (fun _ => 0) [noteA] [noteA] 1 =
      (modelAB, pySliceLast ([noteA] ++ [weightedChoice [(noteB, 1)] 0]) 1,
       [noteA] ++ [weightedChoice [(noteB, 1)] 0], 2) :=
  (genIter_spec modelAB (modelAB.map Prod.fst) 1 (fun _ => 0) [noteA] [noteA] 1).1
    [(noteB, 1)] rfl (by decide)

theorem findOff_eq_find? : ∀ (pitch : Nat) (l : List MidiEvent),
    findOff pitch l = (l.find? (isEndFor pitch)).map endFields := by
  intro pitch l
  induction l with
  | nil => rfl
  | cons e rest ih =>
    cases e with
    | noteOn p v t =>
      by_cases h : v = 0 ∧ p = pitch
      · simp [findOff, List.find?, isEndFor, h, endFields]
      · simp [findOff, List.find?, isEndFor, h, ih]
    | noteOff p v t =>
      by_cases h : p = pitch
      · simp [findOff, List.find?, isEndFor, h, endFields]
      · simp [findOff, List.find?, isEndFor, h, ih]
    | setTempo t tm => simp [findOff, List.find?, isEndFor, ih]
    | otherMsg tm => simp [findOff, List.find?, isEndFor, ih]

theorem pairAt_zero (d p v t : Nat) (rest : List MidiEvent) :
    pairAt d (MidiEvent.noteOn p v t :: rest) 0 =
      ((⟨p, v, t⟩ : NoteEvent), (findOff p rest).getD ⟨p, 0, d⟩) := by
  unfold pairAt
  rw [findOff_eq_find?]
  cases h : rest.find? (isEndFor p) with
  | none => simp [beginFields, h]
  | some e => simp [beginFields, h]

theorem extract_notes_spec_cons (d : Nat) (e : MidiEvent) (rest : List MidiEvent) :
    extract_notes_spec d (e :: rest) =
      (if isBeginEvt e then [pairAt d (e :: rest) 0] else []) ++
        extract_notes_spec d rest := by
  unfold extract_notes_spec
  rw [List.length_cons, List.range_succ_eq_map, List.filter_cons,
    List.getD_cons_zero]
  have htail : ((List.map Nat.succ (List.range rest.length)).filter
      (fun i => isBeginEvt ((e :: rest).getD i (MidiEvent.otherMsg 0)))).map
        (pairAt d (e :: rest)) =
      ((List.range rest.length).filter
        (fun i => isBeginEvt (rest.getD i (MidiEvent.otherMsg 0)))).map (pairAt d rest) := by
    rw [List.filter_map, List.map_map]
    rfl
  by_cases h : isBeginEvt e = true
  · rw [if_pos h, List.map_cons, htail, if_pos h]
    rfl
  · rw [if_neg h, htail, if_neg h]
    rfl

/-- C4: the pairer equals its positional characterization — exactly one pair
per begin-kind event (a `note_on` with positive velocity), in original
relative order, each matched by value (no consumption) with the first
end-kind event of the same pitch after it, falling back to
`(pitch, 0, d)` when none exists; and empty input yields empty output. The
source's documented default for `d` is 480. -/
theorem extract_notes_indexed (d : Nat) (track : List MidiEvent) :
    extract_notes d track = extract_notes_spec d track ∧
      extract_notes 480 [] = [] := by
  refine ⟨?_, rfl⟩
  induction track with
  | nil => rfl
  | cons e rest ih =>
    rw [extract_notes_spec_cons]
    cases e with
    | noteOn p v t =>
      by_cases hv : 0 < v
      · have hb : isBeginEvt (MidiEvent.noteOn p v t) = true := by
          simp [isBeginEvt, hv]
        rw [if_pos hb]
        simp only [extract_notes, if_pos hv]
        rw [pairAt_zero, ih]
        rfl
      · have hb : ¬isBeginEvt (MidiEvent.noteOn p v t) = true := by
          simp [isBeginEvt, hv]
        rw [if_neg hb]
        simp only [extract_notes, if_neg hv]
        rw [ih]
        rfl
    | noteOff p v t =>
      rw [if_neg (by simp [isBeginEvt])]
      simp only [extract_notes]
      rw [ih]
      rfl
    | setTempo tv tm =>
      rw [if_neg (by simp [isBeginEvt])]
      simp only [extract_notes]
      rw [ih]
      rfl
    | otherMsg tm =>
      rw [if_neg (by simp [isBeginEvt])]
      simp only [extract_notes]
      rw [ih]
      rfl

theorem findTempo_eq_find? : ∀ (l : List MidiEvent),
    findTempo l = (l.find? isTempoEvt).map tempoOf := by
  intro l
  induction l with
  | nil => rfl
  | cons e rest ih =>
    cases e with
    | setTempo t tm => simp [findTempo, List.find?, isTempoEvt, tempoOf]
    | noteOn p v t => simp [findTempo, List.find?, isTempoEvt, ih]
    | noteOff p v t => simp [findTempo, List.find?, isTempoEvt, ih]
    | otherMsg tm => simp [findTempo, List.find?, isTempoEvt, ih]

theorem save_body_congr : ∀ (pairs : List NotePair),
    (∀ pr ∈ pairs, pr.1.pitch = pr.2.pitch) →
    pairs.flatMap (fun pr =>
      [MidiEvent.noteOn pr.1.pitch pr.1.velocity pr.1.time,
       MidiEvent.noteOff pr.1.pitch pr.2.velocity pr.2.time]) =
    pairs.flatMap (fun pr =>
      [MidiEvent.noteOn pr.1.pitch pr.1.velocity pr.1.time,
       MidiEvent.noteOff pr.2.pitch pr.2.velocity pr.2.time]) := by
  intro pairs
  induction pairs with
  | nil => intro _; rfl
  | cons pr rest ih =>
    intro hinv
    rw [List.flatMap_cons, List.flatMap_cons,
      ih (fun q hq => hinv q (List.mem_cons_of_mem _ hq)),
      hinv pr (List.mem_cons_self _ _)]

/-- C3: for pairs satisfying the `NotePair` invariant (equal begin and end
pitch), the serializer emits first the tempo directive — the first one found
in the metadata track, copied with zero delta-time, or the 500000 µs/beat
(120 BPM) default with zero delta-time — and then, per pair in input order,
a begin event with the begin member's stored pitch/velocity/delta-time
immediately followed by an end event with the end member's stored
pitch/velocity/delta-time, with no timing recomputation. -/
theorem save_melody_spec (pairs : List NotePair) (track : List MidiEvent)
    (hinv : ∀ pr ∈ pairs, pr.1.pitch = pr.2.pitch) :
    save_melody pairs track =
      (match track.find? isTempoEvt with
       | some e => MidiEvent.setTempo (tempoOf e) 0
       | none => MidiEvent.setTempo 500000 0) ::
      pairs.flatMap (fun pr =>
        [MidiEvent.noteOn pr.1.pitch pr.1.velocity pr.1.time,
         MidiEvent.noteOff pr.2.pitch pr.2.velocity pr.2.time]) := by
  unfold save_melody tempoMsg
  rw [findTempo_eq_find?, save_body_congr pairs hinv]
  cases h : track.find? isTempoEvt with
  | none => simp [h]; rfl
  | some e => simp [h]

/-- Witness for C3 at a concrete pair list and tempo-free metadata track. -/
theorem save_melody_spec_witness :
    save_melody [noteA, noteB] [MidiEvent.otherMsg 7] =
      (match [MidiEvent.otherMsg 7].find? isTempoEvt with
       | some e => MidiEvent.setTempo (tempoOf e) 0
       | none => MidiEvent.setTempo 500000 0) ::
      [noteA, noteB].flatMap (fun pr =>
        [MidiEvent.noteOn pr.1.pitch pr.1.velocity pr.1.time,
         MidiEvent.noteOff pr.2.pitch pr.2.velocity pr.2.time]) :=
  save_melody_spec [noteA, noteB] [MidiEvent.otherMsg 7] (by decide)

theorem extract_matched : ∀ (ps : List NotePair),
    (∀ pr ∈ ps, 0 < pr.1.velocity ∧ pr.2.pitch = pr.1.pitch) →
    ∀ d, extract_notes d (matchedStream ps) = ps := by
  intro ps
  induction ps with
  | nil => intro _ d; rfl
  | cons pr rest ih =>
    intro hm d
    obtain ⟨hv, hp⟩ := hm pr (List.mem_cons_self _ _)
    show extract_notes d
      (MidiEvent.noteOn pr.1.pitch pr.1.velocity pr.1.time ::
       MidiEvent.noteOff pr.2.pitch pr.2.velocity pr.2.time ::
       matchedStream rest) = pr :: rest
    simp only [extract_notes, if_pos hv, findOff, if_pos hp]
    rw [ih (fun q hq => hm q (List.mem_cons_of_mem _ hq)) d]
    rfl

/-- C8: on a perfectly matched begin/end stream (each begin has positive
velocity and is immediately followed by its explicit end of the same
pitch), serializing the pairer's output reproduces the whole original event
stream after the tempo event: the expansion is lossless on already-paired
input. -/
theorem roundtrip_matched (ps : List NotePair) (track : List MidiEvent)
    (hm : ∀ pr ∈ ps, 0 < pr.1.velocity ∧ pr.2.pitch = pr.1.pitch) :
    save_melody (extract_notes 480 (matchedStream ps)) track =
      tempoMsg track :: matchedStream ps := by
  rw [extract_matched ps hm 480]
  unfold save_melody matchedStream
  rw [save_body_congr ps (fun pr hpr => ((hm pr hpr).2).symm)]

/-- Witness for C8 at the spec's worked two-note matched stream. -/
theorem roundtrip_matched_witness :
    save_melody (extract_notes 480 (matchedStream [noteA, noteB])) [] =
      tempoMsg [] :: matchedStream [noteA, noteB] :=
  roundtrip_matched [noteA, noteB] [] (by decide)

theorem counterIncr_inv (elems : List NotePair) :
    ∀ (c : SuccCounter) (p : NotePair),
    (∀ qc ∈ c, qc.1 ∈ elems ∧ 1 ≤ qc.2) → p ∈ elems →
    ∀ qc ∈ counterIncr c p, qc.1 ∈ elems ∧ 1 ≤ qc.2 := by
  intro c
  induction c with
  | nil =>
    intro p _ hp qc hqc
    simp only [counterIncr, List.mem_singleton] at hqc
    rw [hqc]
    exact ⟨hp, le_refl 1⟩
  | cons hd tl ih =>
    intro p hc hp qc hqc
    obtain ⟨a, n⟩ := hd
    by_cases h : a = p
    · simp only [counterIncr, if_pos h] at hqc
      cases List.mem_cons.mp hqc with
      | inl he =>
        rw [he]
        refine ⟨(hc (a, n) (List.mem_cons_self _ _)).1, ?_⟩
        omega
      | inr he => exact hc qc (List.mem_cons_of_mem _ he)
    · simp only [counterIncr, if_neg h] at hqc
      cases List.mem_cons.mp hqc with
      | inl he =>
        rw [he]
        exact hc (a, n) (List.mem_cons_self _ _)
      | inr he =>
        exact ih p (fun x hx => hc x (List.mem_cons_of_mem _ hx)) hp qc he

theorem modelIncr_inv (order : Nat) (elems : List NotePair) :
    ∀ (m : Model) (ctx : Context) (p : NotePair),
    ModelInv order elems m → ctx.length = order → (∀ q ∈ ctx, q ∈ elems) →
    p ∈ elems → ModelInv order elems (modelIncr m ctx p) := by
  intro m
  induction m with
  | nil =>
    intro ctx p _ hlen hctx hp e he
    simp only [modelIncr, List.mem_singleton] at he
    rw [he]
    exact ⟨hlen, hctx, counterIncr_inv elems [] p (by intro qc hqc; simp at hqc) hp⟩
  | cons hd tl ih =>
    intro ctx p hm hlen hctx hp e he
    obtain ⟨c, cnt⟩ := hd
    by_cases h : c = ctx
    · simp only [modelIncr, if_pos h] at he
      cases List.mem_cons.mp he with
      | inl heq =>
        rw [heq]
        obtain ⟨h1, h2, h3⟩ := hm (c, cnt) (List.mem_cons_self _ _)
        exact ⟨h1, h2, counterIncr_inv elems cnt p h3 hp⟩
      | inr heq => exact hm e (List.mem_cons_of_mem _ heq)
    · simp only [modelIncr, if_neg h] at he
      cases List.mem_cons.mp he with
      | inl heq =>
        rw [heq]
        exact hm (c, cnt) (List.mem_cons_self _ _)
      | inr heq =>
        exact ih ctx p (fun x hx => hm x (List.mem_cons_of_mem _ hx)) hlen hctx hp e heq

theorem modelSetdefault_inv (order : Nat) (elems : List NotePair)
    (m : Model) (ctx : Context)
    (hm : ModelInv order elems m) (hlen : ctx.length = order)
    (hctx : ∀ q ∈ ctx, q ∈ elems) :
    ModelInv order elems (modelSetdefault m ctx) := by
  unfold modelSetdefault
  cases lookupCtx m ctx with
  | some cnt => exact hm
  | none =>
    intro e he
    cases List.mem_append.mp he with
    | inl h => exact hm e h
    | inr h =>
      simp only [List.mem_singleton] at h
      rw [h]
      exact ⟨hlen, hctx, by intro qc hqc; simp at hqc⟩

theorem foldl_incr_inv (order : Nat) (elems : List NotePair) (s : List NotePair)
    (hss : ∀ p ∈ s, p ∈ elems) :
    ∀ (is : List Nat), (∀ i ∈ is, i + order < s.length) →
    ∀ m, ModelInv order elems m →
    ModelInv order elems
      (is.foldl
        (fun acc i => modelIncr acc (windowAt s order i) (s.getD (i + order) defaultPair)) m) := by
  intro is
  induction is with
  | nil => intro _ m hm; exact hm
  | cons i it ih =>
    intro hb m hm
    rw [List.foldl_cons]
    have hio : i + order < s.length := hb i (List.mem_cons_self _ _)
    apply ih (fun j hj => hb j (List.mem_cons_of_mem _ hj))
    apply modelIncr_inv order elems m (windowAt s order i) _ hm
    · unfold windowAt
      rw [List.length_take, List.length_drop]
      exact Nat.min_eq_left (by omega)
    · intro q hq
      unfold windowAt at hq
      exact hss q (List.drop_subset i s (List.take_subset order _ hq))
    · rw [List.getD_eq_getElem s defaultPair hio]
      exact hss _ (List.getElem_mem hio)

theorem trainModel_inv (order : Nat) (elems : List NotePair) (m : Model)
    (s : List NotePair) (hm : ModelInv order elems m)
    (hss : ∀ p ∈ s, p ∈ elems) (ho : 0 < order) (hlen : order < s.length) :
    ModelInv order elems (trainModel order m s) := by
  unfold trainModel trainWindows
  have htail : pySliceLast s order = s.drop (s.length - order) := by
    unfold pySliceLast
    rw [if_neg (Nat.pos_iff_ne_zero.mp ho)]
  rw [htail]
  apply modelSetdefault_inv
  · apply foldl_incr_inv order elems s hss
    · intro i hi
      have := List.mem_range.mp hi
      omega
    · exact hm
  · rw [List.length_drop]
    omega
  · intro q hq
    exact hss q (List.drop_subset _ s hq)

theorem train_ok_length (mc mc' : MarkovChain) (s : List NotePair)
    (htr : mc.train s = Except.ok mc') : mc.order < s.length := by
  unfold MarkovChain.train at htr
  by_cases h : s.length ≤ mc.order
  · rw [if_pos h] at htr
    exact absurd htr (by simp)
  · omega

theorem trainAll_inv (order : Nat) (elems : List NotePair) :
    ∀ (seqs : List (List NotePair)) (mc mc' : MarkovChain),
    trainAll mc seqs = Except.ok mc' →
    mc.order = order → ModelInv order elems mc.model →
    (∀ s ∈ seqs, ∀ p ∈ s, p ∈ elems) → 0 < order →
    mc'.order = order ∧ ModelInv order elems mc'.model := by
  intro seqs
  induction seqs with
  | nil =>
    intro mc mc' ht ho hm _ _
    unfold trainAll at ht
    rw [← Except.ok.inj ht]
    exact ⟨ho, hm⟩
  | cons s rest ih =>
    intro mc mc' ht ho hm hs hpos
    unfold trainAll at ht
    cases htr : mc.train s with
    | error e =>
      rw [htr] at ht
      exact absurd ht (by simp)
    | ok mc1 =>
      rw [htr] at ht
      obtain ⟨ho1, hm1⟩ := train_ok_model mc mc1 s htr
      have hlen := train_ok_length mc mc1 s htr
      refine ih mc1 mc' ht (ho1.trans ho) ?_
        (fun s' hs' => hs s' (List.mem_cons_of_mem _ hs')) hpos
      rw [hm1, ho]
      apply trainModel_inv order elems mc.model s (ho ▸ hm)
        (fun p hp => hs s (List.mem_cons_self _ _) p hp) hpos
      omega

theorem lookupCtx_mem : ∀ (m : Model) (ctx : Context) (cnt : SuccCounter),
    lookupCtx m ctx = some cnt → (ctx, cnt) ∈ m := by
  intro m
  induction m with
  | nil => intro ctx cnt h; simp [lookupCtx] at h
  | cons hd tl ih =>
    intro ctx cnt h
    obtain ⟨c, cnt'⟩ := hd
    by_cases hc : c = ctx
    · simp only [lookupCtx, if_pos hc] at h
      rw [← hc, ← Option.some.inj h]
      exact List.mem_cons_self _ _
    · simp only [lookupCtx, if_neg hc] at h
      exact List.mem_cons_of_mem _ (ih ctx cnt h)

theorem escapeChoice_elems (order : Nat) (elems : List NotePair) (m : Model)
    (states : List Context) (hm : ModelInv order elems m)
    (hstates : states = m.map Prod.fst) (hne : m ≠ []) (ho : 0 < order)
    (r r' : Nat) : pairChoice (listChoice states r) r' ∈ elems := by
  have hsne : states ≠ [] := by
    rw [hstates]
    intro hmap
    exact hne (List.map_eq_nil_iff.mp hmap)
  have hst : listChoice states r ∈ List.map Prod.fst m := by
    rw [← hstates]
    exact listChoice_mem states r hsne
  obtain ⟨e, he, heq⟩ := List.mem_map.mp hst
  obtain ⟨hlen, helems, -⟩ := hm e he
  have hstlen : (listChoice states r).length = order := by
    rw [← heq]
    exact hlen
  have hpos : 0 < (listChoice states r).length := by
    rw [hstlen]
    exact ho
  unfold pairChoice
  have hlt : r' % (listChoice states r).length < (listChoice states r).length :=
    Nat.mod_lt _ hpos
  rw [List.getD_eq_getElem _ defaultPair hlt]
  have hmem := List.getElem_mem hlt
  apply helems
  rw [heq]
  exact hmem

theorem genIter_elems (order : Nat) (elems : List NotePair) (m : Model)
    (states : List Context) (rand : Nat → Nat) (current : Context)
    (result : List NotePair) (k : Nat)
    (hm : ModelInv order elems m) (hstates : states = m.map Prod.fst)
    (hne : m ≠ []) (ho : 0 < order)
    (hres : ∀ p ∈ result, p ∈ elems) :
    ∀ p ∈ (genIter m states order rand current result k).2.2.1, p ∈ elems := by
  unfold genIter
  cases hL : lookupCtx m current with
  | none =>
    intro p hp
    cases List.mem_append.mp hp with
    | inl h => exact hres p h
    | inr h =>
      rw [List.mem_singleton.mp h]
      exact escapeChoice_elems order elems m states hm hstates hne ho
        (rand k) (rand (k + 1))
  | some cnt =>
    cases cnt with
    | nil =>
      intro p hp
      cases List.mem_append.mp hp with
      | inl h => exact hres p h
      | inr h =>
        rw [List.mem_singleton.mp h]
        exact escapeChoice_elems order elems m states hm hstates hne ho
          (rand k) (rand (k + 1))
    | cons qd tl =>
      intro p hp
      cases List.mem_append.mp hp with
      | inl h => exact hres p h
      | inr h =>
        rw [List.mem_singleton.mp h]
        obtain ⟨-, -, hcnt⟩ :=
          hm (current, qd :: tl) (lookupCtx_mem m current (qd :: tl) hL)
        have htot : 0 < counterTotal (qd :: tl) := by
          obtain ⟨q, d⟩ := qd
          rw [counterTotal_cons]
          have := (hcnt (q, d) (List.mem_cons_self _ _)).2
          omega
        have hlt : rand k % counterTotal (qd :: tl) < counterTotal (qd :: tl) :=
          Nat.mod_lt _ htot
        obtain ⟨qc, hqc, hq⟩ := List.mem_map.mp (cumPick_mem (qd :: tl) _ hlt)
        unfold weightedChoice
        rw [← hq]
        exact (hcnt qc hqc).1

theorem genLoop_elems (order : Nat) (elems : List NotePair)
    (states : List Context) (rand : Nat → Nat) :
    ∀ (n : Nat) (m : Model) (current : Context) (result : List NotePair) (k : Nat),
    ModelInv order elems m → states = m.map Prod.fst → m ≠ [] → 0 < order →
    (∀ p ∈ result, p ∈ elems) →
    ∀ p ∈ (genLoop states order rand n m current result k).2, p ∈ elems := by
  intro n
  induction n with
  | zero =>
    intro m current result k _ _ _ _ hres p hp
    exact hres p hp
  | succ n ih =>
    intro m current result k hm hstates hne ho hres
    simp only [genLoop]
    rw [genIter_fst]
    exact ih m _ _ _ hm hstates hne ho
      (genIter_elems order elems m states rand current result k
        hm hstates hne ho hres)

/-- C10: every pair of a generated sequence occurs in one of the sequences
the chain was successfully trained on — generation never invents a pair:
the seed comes from a table key, weighted sampling picks a recorded
successor, and the dead-end escape picks an element of a table key, all of
which training built out of elements of the trained sequences. -/
theorem generated_from_training (order : Nat) (seqs : List (List NotePair))
    (mc mc' : MarkovChain) (len : Nat) (rand : Nat → Nat) (res : List NotePair)
    (ho : 0 < order)
    (ht : trainAll ⟨order, []⟩ seqs = Except.ok mc)
    (hg : mc.generate len rand = Except.ok (mc', res)) :
    ∀ p ∈ res, ∃ s ∈ seqs, p ∈ s := by
  have hbase : ModelInv order seqs.flatten ([] : Model) := by
    intro e he
    simp at he
  obtain ⟨hor, hinv⟩ := trainAll_inv order seqs.flatten seqs ⟨order, []⟩ mc ht
    rfl hbase (fun s hs p hp => List.mem_flatten.mpr ⟨s, hs, hp⟩) ho
  unfold MarkovChain.generate at hg
  by_cases h1 : mc.model = []
  · rw [if_pos h1] at hg
    exact absurd hg (by simp)
  · rw [if_neg h1] at hg
    by_cases h2 : len ≤ mc.order
    · rw [if_pos h2] at hg
      exact absurd hg (by simp)
    · rw [if_neg h2] at hg
      have h3 := congrArg Prod.snd (Except.ok.inj hg)
      simp only at h3
      intro p hp
      rw [← h3] at hp
      have hseed : ∀ q ∈ listChoice (mc.model.map Prod.fst) (rand 0),
          q ∈ seqs.flatten := by
        have hsne : mc.model.map Prod.fst ≠ [] := by
          intro hmap
          exact h1 (List.map_eq_nil_iff.mp hmap)
        obtain ⟨e, he, heq⟩ :=
          List.mem_map.mp (listChoice_mem (mc.model.map Prod.fst) (rand 0) hsne)
        intro q hq
        apply (hinv e he).2.1
        rw [heq]
        exact hq
      have hmem := genLoop_elems mc.order seqs.flatten (mc.model.map Prod.fst)
        rand (len - mc.order) mc.model
        (listChoice (mc.model.map Prod.fst) (rand 0))
        (listChoice (mc.model.map Prod.fst) (rand 0)) 1
        (hor ▸ hinv) rfl h1 (hor ▸ ho) hseed p hp
      exact List.mem_flatten.mp hmem

/-- Witness for C10: the concrete run trained on `[[noteA, noteB]]` only
generates pairs of that sequence. -/
theorem generated_from_training_witness :
    ∃ s ∈ [[noteA, noteB]], noteA ∈ s :=
  generated_from_training 1 [[noteA, noteB]] ⟨1, modelAB⟩ ⟨1, modelAB⟩ 3
    (fun _ => 0) [noteA, noteB, noteA] (by decide) rfl rfl noteA (by decide)
